import Mathlib

/-!
Verification of the synchronization core of a settings-sync tool with two
repository backends:

* a WebDAV-like backend (`src/repositories/webdav.ts`): recursive pull into a
  local mirror, push with a per-invocation directory-existence cache, and a
  health-checked initialize;
* a Git-like backend (`LocalGitRepository`): staged-change detection before
  commit, profile duplication with a `.gitkeep` placeholder, and an
  always-successful pull.

Paths are shallowly embedded as lists of segments (the root `/` is `[]`,
`Uri.joinPath(dir, "..")` is `List.dropLast`).  Remote and local file-system
effects are recorded in explicit event traces so that at-most-once and
ordering properties can be stated about a whole `push()` or `pull()` run.
-/

/-- A remote (or mirror-relative local) path: the segments below the root.
`[]` is the root `/`. -/
abbrev RPath := List String

/-- One remote file-system effect issued by the WebDAV backend during `push`:
a `stat` probe (with its outcome), a `mkdir`, or a file `write`. -/
inductive WEv where
  | stat : RPath → Bool → WEv
  | mkdir : RPath → WEv
  | write : RPath → WEv
deriving DecidableEq, Repr

/-- State threaded through one WebDAV `push()` invocation: the set of remote
directories that exist, the `exists` record (`DirectoryExistenceCache`)
mapping paths marked `true`, and the trace of remote effects so far. -/
structure PushSt where
  remote : List RPath
  cache : List RPath
  trace : List WEv
deriving DecidableEq, Repr

/-- `WebDAVRepository.ensureDir(dir, exists)`: return at once if the cache
marks `dir`; otherwise first ensure the parent (unless `dir` is the root
`/`), then stat `dir`, falling back to `mkdir` when the stat fails, and
finally mark `dir` in the cache. -/
def ensureDir (s : PushSt) (dir : RPath) : PushSt :=
  if dir ∈ s.cache then s
  else
    let s1 := if _h : dir = [] then s else ensureDir s dir.dropLast
    let s2 :=
      if dir ∈ s1.remote then
        { s1 with trace := s1.trace ++ [WEv.stat dir true] }
      else
        { s1 with remote := dir :: s1.remote
                  trace := s1.trace ++ [WEv.stat dir false, WEv.mkdir dir] }
    { s2 with cache := dir :: s2.cache }
termination_by dir.length
decreasing_by
  simp only [List.length_dropLast]
  have : 0 < dir.length := List.length_pos.mpr _h
  omega

/-- `WebDAVRepository.pushFile`: ensure the remote parent directory chain of
the file exists, then upload the file. -/
def pushFile (s : PushSt) (file : RPath) : PushSt :=
  let s1 := ensureDir s file.dropLast
  { s1 with trace := s1.trace ++ [WEv.write file] }

/-- `WebDAVRepository.push()`: starting from a fresh empty cache
(`const exists = {}`) and an empty trace, push every enumerated local file. -/
def pushRun (remote : List RPath) (files : List RPath) : PushSt :=
  files.foldl pushFile { remote := remote, cache := [], trace := [] }

/-- Number of `stat` probes issued for path `p` in a trace. -/
def statCount (p : RPath) (tr : List WEv) : Nat :=
  (tr.filter fun e =>
    match e with
    | WEv.stat q _ => decide (q = p)
    | _ => false).length

/-- Number of `mkdir` requests issued for path `p` in a trace. -/
def mkdirCount (p : RPath) (tr : List WEv) : Nat :=
  (tr.filter fun e =>
    match e with
    | WEv.mkdir q => decide (q = p)
    | _ => false).length

/-- The path a trace event probes or creates, if it is a `stat` or `mkdir`. -/
def evDirPath : WEv → Option RPath
  | WEv.stat p _ => some p
  | WEv.mkdir p => some p
  | WEv.write _ => none

/-- Accumulate, left to right, the paths that have been the subject of a
`stat` or `mkdir` event, on top of the already-seen paths `seen`. -/
def smAcc (seen : List RPath) : List WEv → List RPath
  | [] => seen
  | e :: rest =>
    smAcc (match evDirPath e with
           | some p => p :: seen
           | none => seen) rest

/-- Every `stat`/`mkdir` event in the trace is on a path all of whose proper
ancestors were already the subject of an earlier `stat` or `mkdir` event
(given the paths in `seen` as already settled). -/
def ancOKAux (seen : List RPath) : List WEv → Prop
  | [] => True
  | e :: rest =>
    (∀ p, evDirPath e = some p → ∀ k, k < p.length → p.take k ∈ seen) ∧
    ancOKAux (match evDirPath e with
              | some p => p :: seen
              | none => seen) rest

/-- Root-to-leaf discipline of a trace: no `stat`/`mkdir` on a path before
every one of its proper ancestors has had its own `stat` or `mkdir`. -/
def ancOK (tr : List WEv) : Prop := ancOKAux [] tr

/-- Fuel-bounded variant of `ensureDir`, used to express termination: the
recursion consumes one unit of fuel per `parent()` step. -/
def ensureDirFuel : Nat → PushSt → RPath → Option PushSt
  | 0, _, _ => none
  | fuel + 1, s, dir =>
    if dir ∈ s.cache then some s
    else
      match (if dir = [] then some s else ensureDirFuel fuel s dir.dropLast) with
      | none => none
      | some s1 =>
        let s2 :=
          if dir ∈ s1.remote then
            { s1 with trace := s1.trace ++ [WEv.stat dir true] }
          else
            { s1 with remote := dir :: s1.remote
                      trace := s1.trace ++ [WEv.stat dir false, WEv.mkdir dir] }
        some { s2 with cache := dir :: s2.cache }

/-- Invariant maintained over one `push()`: every path has been stat-probed
at most once and created at most once, and a path not yet marked in the
cache has never been probed nor created. -/
def C1Inv (s : PushSt) : Prop :=
  ∀ p : RPath,
    statCount p s.trace ≤ 1 ∧ mkdirCount p s.trace ≤ 1 ∧
    (p ∉ s.cache → statCount p s.trace = 0 ∧ mkdirCount p s.trace = 0)

/-- Every cached path, and every ancestor of a cached path, has already been
the subject of a `stat` or `mkdir` event in the trace. -/
def CachedSeen (s : PushSt) : Prop :=
  ∀ p ∈ s.cache, ∀ k, k ≤ p.length → p.take k ∈ smAcc [] s.trace

/-- Local-mirror effects issued during `pull()`: removing the whole mirror,
creating a local directory, or writing a local text file. -/
inductive LEv where
  | rmrf : LEv
  | mkdirL : RPath → LEv
  | writeL : RPath → String → LEv
deriving DecidableEq, Repr

/-- The local mirror: its created directories and its text files. -/
structure LFS where
  dirs : List RPath
  files : List (RPath × String)
deriving DecidableEq, Repr

/-- Look a path up in a file association list; the most recent write is at
the front. -/
def lookupF (p : RPath) : List (RPath × String) → Option String
  | [] => none
  | (q, c) :: rest => if q = p then some c else lookupF p rest

/-- First-defined alternative of two optional results. -/
def firstSome (a b : Option String) : Option String :=
  match a with
  | some c => some c
  | none => b

/-- `fs.writeFile(localFile, data, "utf8")` on the mirror: the new content
shadows any previous content of the same path. -/
def writeLocal (p : RPath) (c : String) (st : LFS × List LEv) : LFS × List LEv :=
  (⟨st.1.dirs, (p, c) :: st.1.files⟩, st.2 ++ [LEv.writeL p c])

/-- `fse.mkdir(localDir)` on the mirror. -/
def mkdirLocal (p : RPath) (st : LFS × List LEv) : LFS × List LEv :=
  (⟨p :: st.1.dirs, st.1.files⟩, st.2 ++ [LEv.mkdirL p])

/-- A `readdir` listing of the remote hierarchical store: each entry is a
named text file (with its content) or a named directory carrying its own
listing. -/
inductive Forest where
  | nil : Forest
  | fileCons : String → String → Forest → Forest
  | dirCons : String → Forest → Forest → Forest
deriving DecidableEq, Repr

/-- The entry names of a listing, in order. -/
def names : Forest → List String
  | Forest.nil => []
  | Forest.fileCons n _ rest => n :: names rest
  | Forest.dirCons n _ rest => n :: names rest

/-- Well-formed remote store: every directory listing has distinct entry
names (as a real `readdir` result does). -/
def wfF : Forest → Bool
  | Forest.nil => true
  | Forest.fileCons n _ rest => decide (n ∉ names rest) && wfF rest
  | Forest.dirCons n ch rest => wfF ch && decide (n ∉ names rest) && wfF rest

/-- The text content the remote store holds at relative path `q` below a
listing, if any. -/
def forestLookup (f : Forest) (q : RPath) : Option String :=
  match f with
  | Forest.nil => none
  | Forest.fileCons n c rest =>
    match q with
    | [] => none
    | m :: q2 =>
      if m = n then
        match q2 with
        | [] => some c
        | _ :: _ => none
      else forestLookup rest (m :: q2)
  | Forest.dirCons n ch rest =>
    match q with
    | [] => none
    | m :: q2 =>
      if m = n then forestLookup ch q2 else forestLookup rest (m :: q2)

/-- Walk a remote `readdir` listing whose mirror path is `base`,
sequentially: a file entry is fetched and written to the mirror
(`pullFile`); a directory entry has its mirror directory created first and
is then recursed into (`pullDirectory`), before the remaining entries are
processed. -/
def pullForest (base : RPath) (f : Forest) (st : LFS × List LEv) : LFS × List LEv :=
  match f with
  | Forest.nil => st
  | Forest.fileCons n c rest =>
    pullForest base rest (writeLocal (base ++ [n]) c st)
  | Forest.dirCons n ch rest =>
    pullForest base rest
      (pullForest (base ++ [n]) ch (mkdirLocal (base ++ [n]) st))

/-- `fse.remove(rootPath)`: recursively delete the whole mirror, whatever it
contained. -/
def removeAll (_ : LFS) : LFS := ⟨[], []⟩

/-- `WebDAVRepository.pull()`: remove the local mirror recursively, recreate
it empty, then walk the remote root listing. -/
def pullRun (prior : LFS) (root : Forest) : LFS × List LEv :=
  let st0 : LFS × List LEv := (removeAll prior, [LEv.rmrf])
  pullForest [] root (mkdirLocal [] st0)

/-- The mirror path a local event touches, if any. -/
def levPath : LEv → Option RPath
  | LEv.rmrf => none
  | LEv.mkdirL p => some p
  | LEv.writeL p _ => some p

/-- Accumulate, left to right, the paths of local `mkdir` events on top of
the already-created paths `seen`. -/
def mkAcc (seen : List RPath) : List LEv → List RPath
  | [] => seen
  | e :: rest =>
    mkAcc (match e with
           | LEv.mkdirL p => p :: seen
           | _ => seen) rest

/-- Every local `mkdir`/`write` event on a path happens only after local
`mkdir` events for all of its proper ancestor directories (on top of the
already-created paths `seen`). -/
def dirsFirstAux (seen : List RPath) : List LEv → Prop
  | [] => True
  | e :: rest =>
    (∀ p, levPath e = some p → ∀ k, k < p.length → p.take k ∈ seen) ∧
    dirsFirstAux (match e with
                  | LEv.mkdirL p => p :: seen
                  | _ => seen) rest

/-- Parent-before-child discipline of a local trace: each local directory is
created before anything below it is created or written. -/
def dirsFirst (tr : List LEv) : Prop := dirsFirstAux [] tr

/-- `CommitType` of the Git backend: why a push is happening. -/
inductive CommitType where
  | CREATE : CommitType
  | UPLOAD : CommitType
deriving DecidableEq, Repr

/-- State of the Git-backend mirror and its version-control index: the
working tree (the mirror files), the staging index, the tree committed at
HEAD, the list of commit messages produced, and the trace of
`push(type, profile)` calls performed. -/
structure GitSt where
  work : List (RPath × String)
  index : List (RPath × String)
  head : List (RPath × String)
  log : List String
  pushes : List (CommitType × String)
deriving DecidableEq, Repr

/-- `status().staged` right after `git.add(".")`: the paths at which the
staged index differs from HEAD (added, modified or deleted files). -/
def changedPaths (index head : List (RPath × String)) : List RPath :=
  (index.map Prod.fst ++ head.map Prod.fst).filter
    (fun p => decide (lookupF p index ≠ lookupF p head))

/-- The commit message of `LocalGitRepository.push`: derived only from the
commit type and the profile name. -/
def commitMessage (type : CommitType) (profile : String) : String :=
  if type = CommitType.CREATE then profile ++ ": create"
  else profile ++ ": update"

/-- `LocalGitRepository.push(type, profile)`: stage everything, inspect the
staged set, and commit (with the derived message) only when it is
non-empty; an empty staged set is a logged no-op. -/
def gitPush (type : CommitType) (profile : String) (g : GitSt) : GitSt :=
  let g1 := { g with index := g.work, pushes := g.pushes ++ [(type, profile)] }
  if changedPaths g1.index g1.head = [] then g1
  else { g1 with head := g1.index, log := g1.log ++ [commitMessage type profile] }

/-- The `.gitkeep` placeholder path of a profile inside the mirror. -/
def gitkeepPath (profile : String) : RPath := ["profiles", profile, ".gitkeep"]

/-- `LocalGitRepository.duplicateProfileTo(originalProfile, newProfile)`:
delegate the directory copy to the excluded `FileRepository` base class
(`baseCopy`, an arbitrary state transformer), create the `.gitkeep`
placeholder in the new profile directory if and only if it does not yet
exist, then push with commit type CREATE scoped to the new profile. -/
def duplicateProfileTo (baseCopy : String → String → GitSt → GitSt)
    (g : GitSt) (originalProfile newProfile : String) : GitSt :=
  let g1 := baseCopy originalProfile newProfile g
  let g2 :=
    if lookupF (gitkeepPath newProfile) g1.work = none then
      { g1 with work := (gitkeepPath newProfile, "") :: g1.work }
    else g1
  gitPush CommitType.CREATE newProfile g2

/-- Result of `LocalGitRepository.initialize()`: the resulting state, the
error messages logged, and whether the initialized flag was set. -/
structure GitInitRes where
  g : GitSt
  logs : List String
  initialized : Bool
deriving Repr

/-- `LocalGitRepository.pull()`: ensure the mirror directory exists, chdir
into it, and initialize a fresh index (on the configured branch) when the
directory is not yet a repository; a failure of the underlying `git init`
propagates as an exception.  Returns a success flag. -/
def gitPull (g : GitSt) (isRepo : Bool) (initRes : Except String Unit) :
    Except String (GitSt × Bool) :=
  if isRepo then Except.ok (g, true)
  else
    match initRes with
    | Except.error e => Except.error e
    | Except.ok _ => Except.ok (g, true)

/-- `LocalGitRepository.initialize()`: pull; if the pull reports failure,
log `can not pull git repository` and stop without setting the initialized
flag; otherwise ensure the current profile's `.gitkeep` (pushing CREATE
when it had to be created) and set the initialized flag. -/
def gitInitialize (g : GitSt) (profile : String) (isRepo : Bool)
    (initRes : Except String Unit) : Except String GitInitRes :=
  match gitPull g isRepo initRes with
  | Except.error e => Except.error e
  | Except.ok (g1, ok) =>
    if ok then
      let g2 :=
        if lookupF (gitkeepPath profile) g1.work = none then
          gitPush CommitType.CREATE profile
            { g1 with work := (gitkeepPath profile, "") :: g1.work }
        else g1
      Except.ok ⟨g2, [], true⟩
    else Except.ok ⟨g1, ["can not pull git repository"], false⟩

/-- The success flag a `gitPull` run reports, mapped to `true` when the run
did not return normally (so the statement quantifies only over normal
returns). -/
def gitPullFlag : Except String (GitSt × Bool) → Bool
  | Except.error _ => true
  | Except.ok r => r.2

/-- The messages logged by a `gitInitialize` run that returned normally. -/
def gitInitLogs : Except String GitInitRes → List String
  | Except.error _ => []
  | Except.ok r => r.logs

/-- The initialized flag a normal `gitInitialize` return produced. -/
def gitInitFlag : Except String GitInitRes → Option Bool
  | Except.error _ => none
  | Except.ok r => some r.initialized

/-- The observable shape of a WebDAV root-stat error: an optional error
`code`, an optional HTTP `status`, and its `String(error)` rendering. -/
structure WebDAVError where
  code : Option String
  status : Option Int
  str : String
deriving DecidableEq, Repr

/-- The ASCII apostrophe (`Char.ofNat 39`), used inside two log messages. -/
def apos : String := String.singleton (Char.ofNat 39)

/-- Message logged when the root stat fails with `ECONNREFUSED`. -/
def refusedMsg (url : String) : String :=
  "The connection to \"" ++ url ++ "\" is refused."

/-- Message logged when the root stat fails with HTTP status 401. -/
def unauthorizedMsg (url : String) : String :=
  "The connection to \"" ++ url ++ "\" isn" ++ apos ++ "t authorized."

/-- Message logged when the root stat fails with HTTP status 404. -/
def notFoundMsg (url : String) : String :=
  "The url \"" ++ url ++ "\" can" ++ apos ++ "t be found."

/-- The four-way error classification of the health check in
`WebDAVRepository.initialize()`. -/
def classify (url : String) (e : WebDAVError) : String :=
  if e.code = some "ECONNREFUSED" then refusedMsg url
  else if e.status = some 401 then unauthorizedMsg url
  else if e.status = some 404 then notFoundMsg url
  else e.str

/-- Outcome of `WebDAVRepository.initialize()`: the messages logged and
whether initialization proceeded past the health check.  The base class
`initialize` (which only runs when `proceeded` is true) is what sets the
initialized flag, so `proceeded = false` leaves the backend uninitialized. -/
structure WInitRes where
  logs : List String
  proceeded : Bool
deriving DecidableEq, Repr

/-- `WebDAVRepository.initialize()` after the adapter is created: stat the
root; on any failure, log the classified message and return normally
without running the rest of initialization; on success, proceed to the
base initialize. -/
def webdavInitialize (url : String) (rootStat : Except WebDAVError Unit) :
    WInitRes :=
  match rootStat with
  | Except.error e => ⟨[classify url e], false⟩
  | Except.ok _ => ⟨[], true⟩

/-- Steps observable from the WebDAV `download`/`upload` lifecycle hooks. -/
inductive WAct where
  | pullAct : WAct
  | pushAct : WAct
  | baseDownload : WAct
  | baseUpload : WAct
deriving DecidableEq, Repr

/-- Modelled from the spec: `FileRepository.checkInitialized` (the excluded
base class), the precondition check callers must pass before download or
upload; it fails unless the initialized flag has been set. -/
def checkInitialized (initialized : Bool) : Except String Unit :=
  if initialized then Except.ok () else Except.error "not initialized"

/-- `WebDAVRepository.download()`: run the initialized-precondition check,
then pull, then the base download. -/
def webdavDownload (initialized : Bool) : Except String (List WAct) :=
  match checkInitialized initialized with
  | Except.error e => Except.error e
  | Except.ok _ => Except.ok [WAct.pullAct, WAct.baseDownload]

/-- `WebDAVRepository.upload()`: run the initialized-precondition check,
then the base upload, then push. -/
def webdavUpload (initialized : Bool) : Except String (List WAct) :=
  match checkInitialized initialized with
  | Except.error e => Except.error e
  | Except.ok _ => Except.ok [WAct.baseUpload, WAct.pushAct]

/-- `LocalGitRepository.upload()`: no precondition check — run the base
upload, then `push(UPLOAD)` with the current profile, whatever the
initialized flag holds. -/
def gitUpload (baseUpload : GitSt → GitSt) (profile : String)
    (_initialized : Bool) (g : GitSt) : GitSt :=
  gitPush CommitType.UPLOAD profile (baseUpload g)

theorem ensureDir_cached {s : PushSt} {dir : RPath} (h : dir ∈ s.cache) :
    ensureDir s dir = s := by
  rw [ensureDir]
  simp [h]

theorem ensureDir_uncached {s : PushSt} {dir : RPath} (h : dir ∉ s.cache) :
    ensureDir s dir =
      (let s1 := if dir = [] then s else ensureDir s dir.dropLast
       let s2 :=
         if dir ∈ s1.remote then
           { s1 with trace := s1.trace ++ [WEv.stat dir true] }
         else
           { s1 with remote := dir :: s1.remote
                     trace := s1.trace ++ [WEv.stat dir false, WEv.mkdir dir] }
       { s2 with cache := dir :: s2.cache }) := by
  rw [ensureDir]
  simp [h]

theorem smAcc_append (seen : List RPath) (t1 t2 : List WEv) :
    smAcc seen (t1 ++ t2) = smAcc (smAcc seen t1) t2 := by
  induction t1 generalizing seen with
  | nil => simp [smAcc]
  | cons e rest ih => simp [smAcc, ih]

theorem smAcc_sub (seen : List RPath) (tr : List WEv) : seen ⊆ smAcc seen tr := by
  induction tr generalizing seen with
  | nil => simp [smAcc]
  | cons e rest ih =>
    intro x hx
    simp only [smAcc]
    refine ih _ ?_
    cases h : evDirPath e <;> simp [hx]

theorem ancOKAux_append (seen : List RPath) (t1 t2 : List WEv) :
    ancOKAux seen (t1 ++ t2) ↔ ancOKAux seen t1 ∧ ancOKAux (smAcc seen t1) t2 := by
  induction t1 generalizing seen with
  | nil => simp [ancOKAux, smAcc]
  | cons e rest ih => simp [ancOKAux, smAcc, ih, and_assoc]

theorem statCount_append (p : RPath) (t1 t2 : List WEv) :
    statCount p (t1 ++ t2) = statCount p t1 + statCount p t2 := by
  simp [statCount, List.filter_append]

theorem mkdirCount_append (p : RPath) (t1 t2 : List WEv) :
    mkdirCount p (t1 ++ t2) = mkdirCount p t1 + mkdirCount p t2 := by
  simp [mkdirCount, List.filter_append]

theorem statCount_stat (p q : RPath) (b : Bool) :
    statCount p [WEv.stat q b] = if q = p then 1 else 0 := by
  by_cases h : q = p <;> simp [statCount, h]

theorem statCount_mkdir (p q : RPath) : statCount p [WEv.mkdir q] = 0 := by
  simp [statCount]

theorem statCount_write (p q : RPath) : statCount p [WEv.write q] = 0 := by
  simp [statCount]

theorem mkdirCount_stat (p q : RPath) (b : Bool) :
    mkdirCount p [WEv.stat q b] = 0 := by
  simp [mkdirCount]

theorem mkdirCount_mkdir (p q : RPath) :
    mkdirCount p [WEv.mkdir q] = if q = p then 1 else 0 := by
  by_cases h : q = p <;> simp [mkdirCount, h]

theorem mkdirCount_write (p q : RPath) : mkdirCount p [WEv.write q] = 0 := by
  simp [mkdirCount]



theorem ensureDir_cache_eq {s : PushSt} {dir : RPath} (h : dir ∉ s.cache) :
    (ensureDir s dir).cache =
      dir :: (if dir = [] then s else ensureDir s dir.dropLast).cache := by
  rw [ensureDir_uncached h]
  by_cases hr : dir ∈ (if dir = [] then s else ensureDir s dir.dropLast).remote <;>
    simp [hr]

theorem ensureDir_trace_eq {s : PushSt} {dir : RPath} (h : dir ∉ s.cache) :
    (ensureDir s dir).trace =
      (if dir = [] then s else ensureDir s dir.dropLast).trace ++
      (if dir ∈ (if dir = [] then s else ensureDir s dir.dropLast).remote then
         [WEv.stat dir true]
       else [WEv.stat dir false, WEv.mkdir dir]) := by
  rw [ensureDir_uncached h]
  by_cases hr : dir ∈ (if dir = [] then s else ensureDir s dir.dropLast).remote <;>
    simp [hr]

theorem ensureDir_mem_cache (s : PushSt) (dir : RPath) :
    dir ∈ (ensureDir s dir).cache := by
  by_cases h : dir ∈ s.cache
  · rw [ensureDir_cached h]
    exact h
  · rw [ensureDir_cache_eq h]
    exact List.mem_cons_self _ _

theorem ensureDir_cache_mono (s : PushSt) (dir : RPath) :
    s.cache ⊆ (ensureDir s dir).cache := by
  induction dir using ensureDir.induct s with
  | case1 d hd =>
    rw [ensureDir_cached hd]
    exact List.Subset.refl _
  | case2 d hd ih =>
    rw [ensureDir_cache_eq hd]
    by_cases hroot : d = []
    · simp only [hroot, ite_true]
      exact List.subset_cons_of_subset _ (List.Subset.refl _)
    · simp only [hroot, ite_false]
      exact List.subset_cons_of_subset _ (ih hroot)

theorem ensureDir_cache_le (s : PushSt) (dir : RPath) :
    ∀ p ∈ (ensureDir s dir).cache, p ∈ s.cache ∨ p.length ≤ dir.length := by
  induction dir using ensureDir.induct s with
  | case1 d hd =>
    rw [ensureDir_cached hd]
    exact fun p hp => Or.inl hp
  | case2 d hd ih =>
    rw [ensureDir_cache_eq hd]
    intro p hp
    rcases List.mem_cons.mp hp with hp | hp
    · exact Or.inr (by simp [hp])
    · by_cases hroot : d = []
      · rw [if_pos hroot] at hp
        exact Or.inl hp
      · rw [if_neg hroot] at hp
        rcases ih hroot p hp with h | h
        · exact Or.inl h
        · refine Or.inr ?_
          have := List.length_dropLast d
          omega

theorem ensureDir_trace_mono (s : PushSt) (dir : RPath) :
    ∃ ext, (ensureDir s dir).trace = s.trace ++ ext := by
  induction dir using ensureDir.induct s with
  | case1 d hd =>
    rw [ensureDir_cached hd]
    exact ⟨[], by simp⟩
  | case2 d hd ih =>
    rw [ensureDir_trace_eq hd]
    by_cases hroot : d = []
    · simp only [hroot, ite_true]
      exact ⟨_, rfl⟩
    · simp only [hroot, ite_false]
      obtain ⟨ext2, hext⟩ := ih hroot
      exact ⟨_, by rw [hext, List.append_assoc]⟩

theorem ensureDir_counts_frozen (s : PushSt) (dir p : RPath) (hp : p ∈ s.cache) :
    statCount p (ensureDir s dir).trace = statCount p s.trace ∧
    mkdirCount p (ensureDir s dir).trace = mkdirCount p s.trace := by
  induction dir using ensureDir.induct s with
  | case1 d hd =>
    rw [ensureDir_cached hd]
    exact ⟨rfl, rfl⟩
  | case2 d hd ih =>
    have hdp : d ≠ p := fun h => hd (h ▸ hp)
    have hbase :
        statCount p (if d = [] then s else ensureDir s d.dropLast).trace =
          statCount p s.trace ∧
        mkdirCount p (if d = [] then s else ensureDir s d.dropLast).trace =
          mkdirCount p s.trace := by
      by_cases hroot : d = []
      · simp [hroot]
      · simpa [hroot] using ih hroot
    rw [ensureDir_trace_eq hd, statCount_append, mkdirCount_append,
      hbase.1, hbase.2]
    by_cases hr : d ∈ (if d = [] then s else ensureDir s d.dropLast).remote
    · rw [if_pos hr, statCount_stat, mkdirCount_stat, if_neg hdp]
      exact ⟨rfl, rfl⟩
    · rw [if_neg hr]
      have h2 : ([WEv.stat d false, WEv.mkdir d] : List WEv) =
          [WEv.stat d false] ++ [WEv.mkdir d] := rfl
      rw [h2, statCount_append, mkdirCount_append, statCount_stat,
        statCount_mkdir, mkdirCount_stat, mkdirCount_mkdir, if_neg hdp]
      exact ⟨rfl, rfl⟩

theorem ensureDir_C1Inv (s : PushSt) (dir : RPath) (h : C1Inv s) :
    C1Inv (ensureDir s dir) := by
  induction dir using ensureDir.induct s with
  | case1 d hd =>
    rw [ensureDir_cached hd]
    exact h
  | case2 d hd ih =>
    have h1 : C1Inv (if d = [] then s else ensureDir s d.dropLast) := by
      by_cases hroot : d = []
      · simpa [hroot] using h
      · simpa [hroot] using ih hroot
    have hd1 : d ∉ (if d = [] then s else ensureDir s d.dropLast).cache := by
      by_cases hroot : d = []
      · simpa [hroot] using hd
      · rw [if_neg hroot]
        intro hmem
        rcases ensureDir_cache_le s d.dropLast d hmem with hc | hc
        · exact hd hc
        · rw [List.length_dropLast] at hc
          have : 0 < d.length := List.length_pos.mpr hroot
          omega
    have hzero := (h1 d).2.2 hd1
    intro p
    rw [ensureDir_trace_eq hd, ensureDir_cache_eq hd, statCount_append,
      mkdirCount_append]
    have hblock :
        statCount p (if d ∈ (if d = [] then s else ensureDir s d.dropLast).remote
            then [WEv.stat d true] else [WEv.stat d false, WEv.mkdir d]) =
          (if d = p then 1 else 0) ∧
        mkdirCount p (if d ∈ (if d = [] then s else ensureDir s d.dropLast).remote
            then [WEv.stat d true] else [WEv.stat d false, WEv.mkdir d]) ≤
          (if d = p then 1 else 0) := by
      by_cases hr : d ∈ (if d = [] then s else ensureDir s d.dropLast).remote
      · rw [if_pos hr, statCount_stat, mkdirCount_stat]
        exact ⟨rfl, Nat.zero_le _⟩
      · rw [if_neg hr]
        have h2 : ([WEv.stat d false, WEv.mkdir d] : List WEv) =
            [WEv.stat d false] ++ [WEv.mkdir d] := rfl
        rw [h2, statCount_append, mkdirCount_append, statCount_stat,
          statCount_mkdir, mkdirCount_stat, mkdirCount_mkdir]
        exact ⟨by omega, by omega⟩
    by_cases hdp : d = p
    · subst hdp
      rw [hblock.1]
      refine ⟨?_, ?_, ?_⟩
      · rw [hzero.1]
        simp
      · have := hblock.2
        rw [hzero.2]
        simpa using this
      · intro hnot
        exact absurd (List.mem_cons_self _ _) hnot
    · rw [hblock.1]
      have hb2 := hblock.2
      rw [if_neg hdp] at hb2 ⊢
      have hple := h1 p
      refine ⟨?_, ?_, ?_⟩
      · omega
      · omega
      · intro hnot
        have hpn : p ∉ (if d = [] then s else ensureDir s d.dropLast).cache :=
          fun hmem => hnot (List.mem_cons_of_mem _ hmem)
        have := hple.2.2 hpn
        omega

theorem ensureDir_ancInv (s : PushSt) (dir : RPath) (h1 : ancOKAux [] s.trace)
    (h2 : CachedSeen s) :
    ancOKAux [] (ensureDir s dir).trace ∧ CachedSeen (ensureDir s dir) := by
  induction dir using ensureDir.induct s with
  | case1 d hd =>
    rw [ensureDir_cached hd]
    exact ⟨h1, h2⟩
  | case2 d hd ih =>
    have hstep : ancOKAux [] (if d = [] then s else ensureDir s d.dropLast).trace ∧
        CachedSeen (if d = [] then s else ensureDir s d.dropLast) := by
      by_cases hroot : d = []
      · simpa [hroot] using ⟨h1, h2⟩
      · simpa [hroot] using ih hroot
    have hanc : ∀ k, k < d.length →
        d.take k ∈ smAcc [] (if d = [] then s else ensureDir s d.dropLast).trace := by
      intro k hk
      by_cases hroot : d = []
      · subst hroot
        simp at hk
      · have hs2 : CachedSeen (ensureDir s d.dropLast) := by
          have hx := hstep.2
          rwa [if_neg hroot] at hx
        have hmem : d.dropLast ∈ (ensureDir s d.dropLast).cache :=
          ensureDir_mem_cache s d.dropLast
        have hlen : 0 < d.length := List.length_pos.mpr hroot
        have hk2 : k ≤ d.dropLast.length := by
          rw [List.length_dropLast]
          omega
        have hx := hs2 d.dropLast hmem k hk2
        have htake : d.dropLast.take k = d.take k := by
          rw [List.dropLast_eq_take, List.take_take]
          congr 1
          rw [List.length_dropLast] at hk2
          omega
        rw [htake] at hx
        rw [if_neg hroot]
        exact hx
    refine ⟨?_, ?_⟩
    · rw [ensureDir_trace_eq hd, ancOKAux_append]
      refine ⟨hstep.1, ?_⟩
      by_cases hr : d ∈ (if d = [] then s else ensureDir s d.dropLast).remote
      · rw [if_pos hr]
        refine ⟨?_, trivial⟩
        intro p hpe k hk
        cases hpe
        exact hanc k hk
      · rw [if_neg hr]
        refine ⟨?_, ?_, trivial⟩
        · intro p hpe k hk
          cases hpe
          exact hanc k hk
        · intro p hpe k hk
          cases hpe
          exact List.mem_cons_of_mem _ (hanc k hk)
    · intro p hp k hk
      rw [ensureDir_cache_eq hd] at hp
      rw [ensureDir_trace_eq hd, smAcc_append]
      have hsub : smAcc [] (if d = [] then s else ensureDir s d.dropLast).trace ⊆
          smAcc (smAcc [] (if d = [] then s else ensureDir s d.dropLast).trace)
            (if d ∈ (if d = [] then s else ensureDir s d.dropLast).remote then
              [WEv.stat d true] else [WEv.stat d false, WEv.mkdir d]) :=
        smAcc_sub _ _
      rcases List.mem_cons.mp hp with hp | hp
      · subst hp
        rcases Nat.lt_or_ge k p.length with hlt | hge
        · exact hsub (hanc k hlt)
        · have hkeq : k = p.length := by omega
          subst hkeq
          rw [List.take_length]
          by_cases hr : p ∈ (if p = [] then s else ensureDir s p.dropLast).remote
          · rw [if_pos hr]
            simp [smAcc, evDirPath]
          · rw [if_neg hr]
            simp [smAcc, evDirPath]
      · exact hsub (hstep.2 p hp k hk)

theorem pushFile_C1Inv (s : PushSt) (f : RPath) (h : C1Inv s) :
    C1Inv (pushFile s f) := by
  intro p
  obtain ⟨ha, hb, hc⟩ := ensureDir_C1Inv s f.dropLast h p
  have htr : (pushFile s f).trace = (ensureDir s f.dropLast).trace ++ [WEv.write f] :=
    rfl
  have hca : (pushFile s f).cache = (ensureDir s f.dropLast).cache := rfl
  rw [htr, hca, statCount_append, mkdirCount_append, statCount_write,
    mkdirCount_write]
  refine ⟨by omega, by omega, fun hnot => ?_⟩
  have := hc hnot
  omega

theorem pushFile_ancInv (s : PushSt) (f : RPath) (h1 : ancOKAux [] s.trace)
    (h2 : CachedSeen s) :
    ancOKAux [] (pushFile s f).trace ∧ CachedSeen (pushFile s f) := by
  have hstep := ensureDir_ancInv s f.dropLast h1 h2
  constructor
  · show ancOKAux [] ((ensureDir s f.dropLast).trace ++ [WEv.write f])
    rw [ancOKAux_append]
    exact ⟨hstep.1, by simp [ancOKAux, evDirPath], trivial⟩
  · intro p hp k hk
    show p.take k ∈ smAcc [] ((ensureDir s f.dropLast).trace ++ [WEv.write f])
    rw [smAcc_append]
    show p.take k ∈ smAcc _ [WEv.write f]
    simp only [smAcc, evDirPath]
    exact hstep.2 p hp k hk

theorem pushRun_C1Inv (remote : List RPath) (files : List RPath) :
    C1Inv (pushRun remote files) := by
  have hgen : ∀ (fs : List RPath) (s : PushSt), C1Inv s → C1Inv (fs.foldl pushFile s) := by
    intro fs
    induction fs with
    | nil => exact fun s h => h
    | cons f rest ih => exact fun s h => ih _ (pushFile_C1Inv s f h)
  refine hgen files _ ?_
  intro p
  refine ⟨?_, ?_, fun _ => ⟨rfl, rfl⟩⟩ <;> simp [statCount, mkdirCount]

theorem pushRun_ancInv (remote : List RPath) (files : List RPath) :
    ancOKAux [] (pushRun remote files).trace ∧ CachedSeen (pushRun remote files) := by
  have hgen : ∀ (fs : List RPath) (s : PushSt),
      ancOKAux [] s.trace ∧ CachedSeen s →
      ancOKAux [] (fs.foldl pushFile s).trace ∧ CachedSeen (fs.foldl pushFile s) := by
    intro fs
    induction fs with
    | nil => exact fun s h => h
    | cons f rest ih => exact fun s h => ih _ (pushFile_ancInv s f h.1 h.2)
  refine hgen files _ ⟨trivial, ?_⟩
  intro p hp
  simp at hp

theorem ensureDirFuel_spec (fuel : Nat) (s : PushSt) (dir : RPath)
    (h : dir.length < fuel) :
    ensureDirFuel fuel s dir = some (ensureDir s dir) := by
  induction fuel generalizing dir with
  | zero => omega
  | succ n ih =>
    by_cases hc : dir ∈ s.cache
    · rw [ensureDirFuel, if_pos hc, ensureDir_cached hc]
    · rw [ensureDirFuel, if_neg hc]
      by_cases hroot : dir = []
      · rw [if_pos hroot, ensureDir_uncached hc, if_pos hroot]
      · have hlen : dir.dropLast.length < n := by
          rw [List.length_dropLast]
          have : 0 < dir.length := List.length_pos.mpr hroot
          omega
        rw [if_neg hroot, ih _ hlen, ensureDir_uncached hc, if_neg hroot]

/-- Claim C1: during a single `push()` over a local mirror, each remote
directory path is stat-probed at most once and created at most once; once
`ensureDir` marks a path `true` in the per-push `DirectoryExistenceCache`,
any later `ensureDir` call of the push leaves the stat and mkdir counts of
that path unchanged; and `ensureDir` marks its argument in the cache no
matter whether the stat succeeded or the mkdir was performed. -/
theorem push_settles_each_directory_at_most_once :
    (∀ (remote files : List RPath) (p : RPath),
      statCount p (pushRun remote files).trace ≤ 1 ∧
      mkdirCount p (pushRun remote files).trace ≤ 1) ∧
    (∀ (s : PushSt) (dir p : RPath), p ∈ s.cache →
      statCount p (ensureDir s dir).trace = statCount p s.trace ∧
      mkdirCount p (ensureDir s dir).trace = mkdirCount p s.trace) ∧
    (∀ (s : PushSt) (dir : RPath), dir ∈ (ensureDir s dir).cache) :=
  ⟨fun remote files p =>
    ⟨(pushRun_C1Inv remote files p).1, (pushRun_C1Inv remote files p).2.1⟩,
   ensureDir_counts_frozen, ensureDir_mem_cache⟩

/-- Closed instance of the C1 theorem: a push of two files under `a` against
a remote that only has the root, a path already cached, and a fresh path. -/
theorem push_settles_each_directory_at_most_once_witness :
    (statCount ["a"] (pushRun [[]] [["a", "x.txt"], ["a", "y.txt"]]).trace ≤ 1 ∧
     mkdirCount ["a"] (pushRun [[]] [["a", "x.txt"], ["a", "y.txt"]]).trace ≤ 1) ∧
    statCount ["a"] (ensureDir (PushSt.mk [] [["a"]] []) ["a", "b"]).trace =
      statCount ["a"] (PushSt.mk [] [["a"]] []).trace ∧
    ["b"] ∈ (ensureDir (PushSt.mk [] [] []) ["b"]).cache :=
  ⟨push_settles_each_directory_at_most_once.1 [[]]
      [["a", "x.txt"], ["a", "y.txt"]] ["a"],
   (push_settles_each_directory_at_most_once.2.1 (PushSt.mk [] [["a"]] [])
      ["a", "b"] ["a"] (by decide)).1,
   push_settles_each_directory_at_most_once.2.2 (PushSt.mk [] [] []) ["b"]⟩

/-- Claim C2: over a whole `push()`, directory settlement proceeds
root-to-leaf: the trace never contains a `stat` or `mkdir` on a path before
each of its proper ancestor directories has been the subject of its own
`stat` or `mkdir` event. -/
theorem push_settles_ancestors_before_descendants :
    ∀ (remote files : List RPath), ancOK (pushRun remote files).trace :=
  fun remote files => (pushRun_ancInv remote files).1

/-- Claim C9: `ensureDir` terminates on every finite-depth path: a fuel
budget of depth + 1 parent steps always suffices (the recursion strictly
descends via `dropLast` and stops at the root), and a path already marked
in the cache returns immediately with the state unchanged. -/
theorem ensureDir_terminates :
    (∀ (s : PushSt) (dir : RPath),
      ensureDirFuel (dir.length + 1) s dir = some (ensureDir s dir)) ∧
    (∀ (s : PushSt) (dir : RPath), dir ∈ s.cache → ensureDir s dir = s) :=
  ⟨fun s dir => ensureDirFuel_spec (dir.length + 1) s dir (Nat.lt_succ_self _),
   fun _ _ h => ensureDir_cached h⟩

/-- Closed instance of the C9 theorem at a depth-2 path and at a cached
path. -/
theorem ensureDir_terminates_witness :
    ensureDirFuel 3 (PushSt.mk [[]] [] []) ["a", "b"] =
      some (ensureDir (PushSt.mk [[]] [] []) ["a", "b"]) ∧
    ensureDir (PushSt.mk [] [["a"]] []) ["a"] = PushSt.mk [] [["a"]] [] :=
  ⟨ensureDir_terminates.1 (PushSt.mk [[]] [] []) ["a", "b"],
   ensureDir_terminates.2 (PushSt.mk [] [["a"]] []) ["a"] (by decide)⟩



theorem firstSome_none_left (b : Option String) : firstSome none b = b := rfl

theorem firstSome_some_left (c : String) (b : Option String) :
    firstSome (some c) b = some c := rfl

theorem firstSome_none_right (a : Option String) : firstSome a none = a := by
  cases a <;> rfl

theorem forestLookup_nil (q : RPath) : forestLookup Forest.nil q = none := rfl

theorem forestLookup_root (f : Forest) : forestLookup f [] = none := by
  cases f <;> rfl

theorem forestLookup_file (n c : String) (rest : Forest) (m : String) (q2 : RPath) :
    forestLookup (Forest.fileCons n c rest) (m :: q2) =
      if m = n then
        (match q2 with
         | [] => some c
         | _ :: _ => none)
      else forestLookup rest (m :: q2) := rfl

theorem forestLookup_dirCons (n : String) (ch rest : Forest) (m : String)
    (q2 : RPath) :
    forestLookup (Forest.dirCons n ch rest) (m :: q2) =
      if m = n then forestLookup ch q2 else forestLookup rest (m :: q2) := rfl

theorem pullForest_nil (base : RPath) (st : LFS × List LEv) :
    pullForest base Forest.nil st = st := rfl

theorem pullForest_file (base : RPath) (n c : String) (rest : Forest)
    (st : LFS × List LEv) :
    pullForest base (Forest.fileCons n c rest) st =
      pullForest base rest (writeLocal (base ++ [n]) c st) := rfl

theorem pullForest_dir (base : RPath) (n : String) (ch rest : Forest)
    (st : LFS × List LEv) :
    pullForest base (Forest.dirCons n ch rest) st =
      pullForest base rest
        (pullForest (base ++ [n]) ch (mkdirLocal (base ++ [n]) st)) := rfl

theorem forestLookup_not_mem {f : Forest} {n : String} (h : n ∉ names f)
    (q2 : RPath) : forestLookup f (n :: q2) = none := by
  induction f with
  | nil => rfl
  | fileCons m c rest ih =>
    rw [names] at h
    simp only [List.mem_cons, not_or] at h
    rw [forestLookup_file, if_neg h.1]
    exact ih h.2
  | dirCons m ch rest ihc ih =>
    rw [names] at h
    simp only [List.mem_cons, not_or] at h
    rw [forestLookup_dirCons, if_neg h.1]
    exact ih h.2

theorem wfF_fileCons {n c : String} {rest : Forest}
    (h : wfF (Forest.fileCons n c rest) = true) :
    n ∉ names rest ∧ wfF rest = true := by
  rw [wfF] at h
  simp only [Bool.and_eq_true, decide_eq_true_eq] at h
  exact h

theorem wfF_dirCons {n : String} {ch rest : Forest}
    (h : wfF (Forest.dirCons n ch rest) = true) :
    wfF ch = true ∧ n ∉ names rest ∧ wfF rest = true := by
  rw [wfF] at h
  simp only [Bool.and_eq_true, decide_eq_true_eq] at h
  exact ⟨h.1.1, h.1.2, h.2⟩

theorem pullForest_lookup (f : Forest) :
    ∀ (base : RPath) (st : LFS × List LEv) (p : RPath), wfF f = true →
      lookupF p (pullForest base f st).1.files =
        firstSome
          (if p.take base.length = base then forestLookup f (p.drop base.length)
           else none)
          (lookupF p st.1.files) := by
  induction f with
  | nil =>
    intro base st p _
    rw [pullForest_nil, forestLookup_nil, ite_self, firstSome_none_left]
  | fileCons n c rest ih =>
    intro base st p hw
    obtain ⟨hn, hwr⟩ := wfF_fileCons hw
    rw [pullForest_file, ih base _ p hwr]
    have hwf : lookupF p (writeLocal (base ++ [n]) c st).1.files =
        if base ++ [n] = p then some c else lookupF p st.1.files := rfl
    rw [hwf]
    by_cases hb : p.take base.length = base
    · have hp : p = base ++ p.drop base.length := by
        conv_lhs => rw [← List.take_append_drop base.length p]
        rw [hb]
      rw [if_pos hb, if_pos hb]
      cases hq : p.drop base.length with
      | nil =>
        rw [hq, List.append_nil] at hp
        rw [forestLookup_root, forestLookup_root, firstSome_none_left,
          firstSome_none_left]
        have hne : ¬(base ++ [n] = p) := by
          rw [hp]
          intro hx
          have hlen := congrArg List.length hx
          rw [List.length_append] at hlen
          simp at hlen
        rw [if_neg hne]
      | cons m q2 =>
        rw [hq] at hp
        rw [forestLookup_file]
        by_cases hmn : m = n
        · subst hmn
          rw [if_pos rfl, forestLookup_not_mem hn q2, firstSome_none_left]
          cases q2 with
          | nil =>
            have heq : base ++ [m] = p := hp.symm
            rw [if_pos heq]
            rfl
          | cons r q3 =>
            have hne : ¬(base ++ [m] = p) := by
              rw [hp]
              intro hx
              have h2 := List.append_cancel_left hx
              simp at h2
            rw [if_neg hne]
            rfl
        · have hne : ¬(base ++ [n] = p) := by
            rw [hp]
            intro hx
            have h2 := List.append_cancel_left hx
            simp at h2
            exact hmn h2.1.symm
          rw [if_neg hne, if_neg hmn]
    · have hne : ¬(base ++ [n] = p) := by
        intro hx
        rw [← hx, List.take_left] at hb
        exact hb rfl
      rw [if_neg hb, if_neg hb, if_neg hne, firstSome_none_left]
  | dirCons n ch rest ihc ih =>
    intro base st p hw
    obtain ⟨hwc, hn, hwr⟩ := wfF_dirCons hw
    rw [pullForest_dir, ih base _ p hwr, ihc (base ++ [n]) _ p hwc]
    have hmk : lookupF p (mkdirLocal (base ++ [n]) st).1.files =
        lookupF p st.1.files := rfl
    rw [hmk]
    by_cases hb : p.take base.length = base
    · have hp : p = base ++ p.drop base.length := by
        conv_lhs => rw [← List.take_append_drop base.length p]
        rw [hb]
      rw [if_pos hb, if_pos hb]
      cases hq : p.drop base.length with
      | nil =>
        rw [hq, List.append_nil] at hp
        have hbn : ¬(p.take (base ++ [n]).length = base ++ [n]) := by
          rw [hp]
          intro hx
          have h1 : base.length ≤ (base ++ [n]).length := by
            simp
          rw [List.take_of_length_le h1] at hx
          have hlen := congrArg List.length hx
          rw [List.length_append] at hlen
          simp at hlen
        rw [if_neg hbn, forestLookup_root, forestLookup_root,
          firstSome_none_left, firstSome_none_left]
      | cons m q2 =>
        rw [hq] at hp
        by_cases hmn : m = n
        · subst hmn
          have hsplit : p = (base ++ [m]) ++ q2 := by
            rw [hp, List.append_assoc]
            rfl
          have hbn : p.take (base ++ [m]).length = base ++ [m] := by
            rw [hsplit, List.take_left]
          have hdrop : p.drop (base ++ [m]).length = q2 := by
            rw [hsplit, List.drop_left]
          rw [if_pos hbn, hdrop, forestLookup_dirCons, if_pos rfl,
            forestLookup_not_mem hn q2, firstSome_none_left]
        · have hsplit : p = (base ++ [m]) ++ q2 := by
            rw [hp, List.append_assoc]
            rfl
          have hbn : ¬(p.take (base ++ [n]).length = base ++ [n]) := by
            have hlen2 : (base ++ [n]).length = (base ++ [m]).length := by
              simp
            rw [hsplit, hlen2, List.take_left]
            intro hx
            have h2 := List.append_cancel_left hx
            simp at h2
            exact hmn h2
          rw [if_neg hbn, firstSome_none_left, forestLookup_dirCons, if_neg hmn]
    · have hbn : ¬(p.take (base ++ [n]).length = base ++ [n]) := by
        intro hx
        apply hb
        have h1 : (p.take (base ++ [n]).length).take base.length =
            p.take base.length := by
          rw [List.take_take]
          congr 1
          simp
        rw [← h1, hx, List.take_left]
      rw [if_neg hb, if_neg hb, if_neg hbn, firstSome_none_left,
        firstSome_none_left]

theorem mkAcc_append (seen : List RPath) (t1 t2 : List LEv) :
    mkAcc seen (t1 ++ t2) = mkAcc (mkAcc seen t1) t2 := by
  induction t1 generalizing seen with
  | nil => simp [mkAcc]
  | cons e rest ih => simp [mkAcc, ih]

theorem mkAcc_sub (seen : List RPath) (tr : List LEv) : seen ⊆ mkAcc seen tr := by
  induction tr generalizing seen with
  | nil => simp [mkAcc]
  | cons e rest ih =>
    intro x hx
    simp only [mkAcc]
    refine ih _ ?_
    cases e <;> simp [hx]

theorem dirsFirstAux_append (seen : List RPath) (t1 t2 : List LEv) :
    dirsFirstAux seen (t1 ++ t2) ↔
      dirsFirstAux seen t1 ∧ dirsFirstAux (mkAcc seen t1) t2 := by
  induction t1 generalizing seen with
  | nil => simp [dirsFirstAux, mkAcc]
  | cons e rest ih => simp [dirsFirstAux, mkAcc, ih, and_assoc]

theorem pullForest_dirsFirst (f : Forest) :
    ∀ (base : RPath) (st : LFS × List LEv),
      dirsFirstAux [] st.2 →
      (∀ k, k ≤ base.length → base.take k ∈ mkAcc [] st.2) →
      dirsFirstAux [] (pullForest base f st).2 ∧
        ∃ ext, (pullForest base f st).2 = st.2 ++ ext := by
  induction f with
  | nil =>
    intro base st h1 _
    exact ⟨h1, [], by simp [pullForest_nil]⟩
  | fileCons n c rest ih =>
    intro base st h1 h2
    rw [pullForest_file]
    have hwev : (writeLocal (base ++ [n]) c st).2 = st.2 ++ [LEv.writeL (base ++ [n]) c] :=
      rfl
    have hanc : ∀ k, k < (base ++ [n]).length → (base ++ [n]).take k ∈ mkAcc [] st.2 := by
      intro k hk
      rw [List.length_append] at hk
      simp only [List.length_singleton] at hk
      have hk2 : k ≤ base.length := by omega
      rw [List.take_append_of_le_length hk2]
      exact h2 k hk2
    have h1w : dirsFirstAux [] (writeLocal (base ++ [n]) c st).2 := by
      rw [hwev, dirsFirstAux_append]
      refine ⟨h1, ?_, trivial⟩
      intro p hpe k hk
      cases hpe
      exact hanc k hk
    have hmw : mkAcc [] (writeLocal (base ++ [n]) c st).2 = mkAcc [] st.2 := by
      rw [hwev, mkAcc_append]
      rfl
    have h2w : ∀ k, k ≤ base.length →
        base.take k ∈ mkAcc [] (writeLocal (base ++ [n]) c st).2 := by
      intro k hk
      rw [hmw]
      exact h2 k hk
    obtain ⟨hd, ext, hext⟩ := ih base _ h1w h2w
    exact ⟨hd, _, by rw [hext, hwev, List.append_assoc]⟩
  | dirCons n ch rest ihc ih =>
    intro base st h1 h2
    rw [pullForest_dir]
    have hmev : (mkdirLocal (base ++ [n]) st).2 = st.2 ++ [LEv.mkdirL (base ++ [n])] :=
      rfl
    have hanc : ∀ k, k < (base ++ [n]).length → (base ++ [n]).take k ∈ mkAcc [] st.2 := by
      intro k hk
      rw [List.length_append] at hk
      simp only [List.length_singleton] at hk
      have hk2 : k ≤ base.length := by omega
      rw [List.take_append_of_le_length hk2]
      exact h2 k hk2
    have h1m : dirsFirstAux [] (mkdirLocal (base ++ [n]) st).2 := by
      rw [hmev, dirsFirstAux_append]
      refine ⟨h1, ?_, trivial⟩
      intro p hpe k hk
      cases hpe
      exact hanc k hk
    have hmm : mkAcc [] (mkdirLocal (base ++ [n]) st).2 =
        (base ++ [n]) :: mkAcc [] st.2 := by
      rw [hmev, mkAcc_append]
      rfl
    have h2m : ∀ k, k ≤ (base ++ [n]).length →
        (base ++ [n]).take k ∈ mkAcc [] (mkdirLocal (base ++ [n]) st).2 := by
      intro k hk
      rw [hmm]
      rw [List.length_append, List.length_singleton] at hk
      rcases Nat.lt_or_ge k (base.length + 1) with hlt | hge
      · have hkb : k < (base ++ [n]).length := by
          rw [List.length_append, List.length_singleton]
          omega
        exact List.mem_cons_of_mem _ (hanc k hkb)
      · have hkeq : k = base.length + 1 := by omega
        subst hkeq
        have : (base ++ [n]).take (base.length + 1) = base ++ [n] := by
          apply List.take_of_length_le
          simp
        rw [this]
        exact List.mem_cons_self _ _
    obtain ⟨hdc, ext1, hext1⟩ := ihc (base ++ [n]) _ h1m h2m
    have h2c : ∀ k, k ≤ base.length →
        base.take k ∈ mkAcc [] (pullForest (base ++ [n]) ch (mkdirLocal (base ++ [n]) st)).2 := by
      intro k hk
      rw [hext1, mkAcc_append]
      refine mkAcc_sub _ _ ?_
      rw [hmm]
      exact List.mem_cons_of_mem _ (h2 k hk)
    obtain ⟨hd, ext2, hext2⟩ := ih base _ hdc h2c
    refine ⟨hd, [LEv.mkdirL (base ++ [n])] ++ ext1 ++ ext2, ?_⟩
    simp [hext2, hext1, hmev]

/-- Claim C3: for any prior state of the local mirror, after `pull()` the
mirror holds exactly the remote store's current files, each with text
content identical to the remote content; the prior mirror state is
discarded wholesale (the mirror is removed recursively and rebuilt, so the
result does not depend on it); and each local directory is created before
anything beneath it is created or written. -/
theorem pull_rebuilds_mirror_from_remote (prior : LFS) (root : Forest)
    (hw : wfF root = true) :
    (∀ p : RPath, lookupF p (pullRun prior root).1.files = forestLookup root p) ∧
    dirsFirst (pullRun prior root).2 ∧
    (∀ prior2 : LFS, pullRun prior root = pullRun prior2 root) := by
  refine ⟨?_, ?_, fun _ => rfl⟩
  · intro p
    have hrun : pullRun prior root =
        pullForest [] root (mkdirLocal [] (removeAll prior, [LEv.rmrf])) := rfl
    rw [hrun, pullForest_lookup root [] _ p hw]
    have hfiles :
        lookupF p (mkdirLocal [] (removeAll prior, [LEv.rmrf])).1.files = none :=
      rfl
    rw [hfiles, firstSome_none_right]
    simp
  · have h1 : dirsFirstAux [] (mkdirLocal [] (removeAll prior, [LEv.rmrf])).2 := by
      simp [dirsFirstAux, levPath, mkdirLocal]
    have h2 : ∀ k, k ≤ ([] : RPath).length →
        ([] : RPath).take k ∈ mkAcc [] (mkdirLocal [] (removeAll prior, [LEv.rmrf])).2 := by
      intro k hk
      simp at hk
      subst hk
      simp [mkAcc, mkdirLocal, removeAll, levPath]
    exact (pullForest_dirsFirst root [] _ h1 h2).1

/-- Closed instance of the C3 theorem: a pull over a two-entry remote store
replaces a stale mirror; lookups agree with the remote both on a pulled
file and on the stale path, and the trace creates parents first. -/
theorem pull_rebuilds_mirror_from_remote_witness :
    lookupF ["a", "b.txt"]
      (pullRun ⟨[["old"]], [(["old"], "x")]⟩
        (Forest.dirCons "a" (Forest.fileCons "b.txt" "B" Forest.nil)
          (Forest.fileCons "c.txt" "C" Forest.nil))).1.files =
      forestLookup
        (Forest.dirCons "a" (Forest.fileCons "b.txt" "B" Forest.nil)
          (Forest.fileCons "c.txt" "C" Forest.nil)) ["a", "b.txt"] ∧
    lookupF ["old"]
      (pullRun ⟨[["old"]], [(["old"], "x")]⟩
        (Forest.dirCons "a" (Forest.fileCons "b.txt" "B" Forest.nil)
          (Forest.fileCons "c.txt" "C" Forest.nil))).1.files =
      forestLookup
        (Forest.dirCons "a" (Forest.fileCons "b.txt" "B" Forest.nil)
          (Forest.fileCons "c.txt" "C" Forest.nil)) ["old"] ∧
    dirsFirst
      (pullRun ⟨[["old"]], [(["old"], "x")]⟩
        (Forest.dirCons "a" (Forest.fileCons "b.txt" "B" Forest.nil)
          (Forest.fileCons "c.txt" "C" Forest.nil))).2 :=
  ⟨(pull_rebuilds_mirror_from_remote ⟨[["old"]], [(["old"], "x")]⟩ _
      (by decide)).1 ["a", "b.txt"],
   (pull_rebuilds_mirror_from_remote ⟨[["old"]], [(["old"], "x")]⟩ _
      (by decide)).1 ["old"],
   (pull_rebuilds_mirror_from_remote ⟨[["old"]], [(["old"], "x")]⟩ _
      (by decide)).2.1⟩

theorem changedPaths_self (l : List (RPath × String)) : changedPaths l l = [] := by
  simp [changedPaths]

theorem gitPush_work (t : CommitType) (p : String) (g : GitSt) :
    (gitPush t p g).work = g.work := by
  rw [gitPush]
  split <;> rfl

theorem gitPush_pushes (t : CommitType) (p : String) (g : GitSt) :
    (gitPush t p g).pushes = g.pushes ++ [(t, p)] := by
  rw [gitPush]
  split <;> rfl

theorem gitPush_index (t : CommitType) (p : String) (g : GitSt) :
    (gitPush t p g).index = g.work := by
  rw [gitPush]
  split <;> rfl

theorem gitPush_no_changes {t : CommitType} {p : String} {g : GitSt}
    (h : changedPaths g.work g.head = []) :
    gitPush t p g = { g with index := g.work, pushes := g.pushes ++ [(t, p)] } := by
  rw [gitPush, if_pos h]

theorem gitPush_with_changes {t : CommitType} {p : String} {g : GitSt}
    (h : changedPaths g.work g.head ≠ []) :
    gitPush t p g =
      { g with index := g.work, head := g.work,
               log := g.log ++ [commitMessage t p],
               pushes := g.pushes ++ [(t, p)] } := by
  rw [gitPush, if_neg h]

/-- Claim C4: a Git-backend `push` whose staged change set is empty performs
no commit (HEAD and the commit log are untouched; only the staging and the
push trace happen); consequently a second `push` right after any `push`,
with no local modifications in between, stages nothing new and commits
nothing — it differs from the first only by the recorded push call. -/
theorem git_push_empty_stage_is_noop :
    (∀ (g : GitSt) (t : CommitType) (p : String),
      changedPaths g.work g.head = [] →
      (gitPush t p g).log = g.log ∧ (gitPush t p g).head = g.head) ∧
    (∀ (g : GitSt) (t t2 : CommitType) (p p2 : String),
      gitPush t2 p2 (gitPush t p g) =
        { gitPush t p g with
            pushes := (gitPush t p g).pushes ++ [(t2, p2)] }) := by
  constructor
  · intro g t p h
    rw [gitPush_no_changes h]
    exact ⟨rfl, rfl⟩
  · intro g t t2 p p2
    have hI : (gitPush t p g).index = (gitPush t p g).work := by
      rw [gitPush_index, gitPush_work]
    have hcond : changedPaths (gitPush t p g).work (gitPush t p g).head = [] := by
      by_cases h : changedPaths g.work g.head = []
      · rw [gitPush_no_changes h]
        exact h
      · rw [gitPush_with_changes h]
        exact changedPaths_self g.work
    rcases hG : gitPush t p g with ⟨w, i, hd, l, ps⟩
    rw [hG] at hI hcond
    simp only at hI hcond
    rw [gitPush_no_changes hcond]
    simp [hI]

/-- Closed instance of the C4 theorem: pushing an unchanged tree commits
nothing, and a second push right after a committing push is a no-op apart
from the recorded call. -/
theorem git_push_empty_stage_is_noop_witness :
    ((gitPush CommitType.UPLOAD "work"
        (GitSt.mk [(["f"], "x")] [] [(["f"], "x")] [] [])).log = [] ∧
      (gitPush CommitType.UPLOAD "work"
        (GitSt.mk [(["f"], "x")] [] [(["f"], "x")] [] [])).head =
        [(["f"], "x")]) ∧
    gitPush CommitType.UPLOAD "work"
        (gitPush CommitType.UPLOAD "work" (GitSt.mk [(["f"], "x")] [] [] [] [])) =
      { gitPush CommitType.UPLOAD "work" (GitSt.mk [(["f"], "x")] [] [] [] []) with
          pushes :=
            (gitPush CommitType.UPLOAD "work"
              (GitSt.mk [(["f"], "x")] [] [] [] [])).pushes ++
              [(CommitType.UPLOAD, "work")] } :=
  ⟨git_push_empty_stage_is_noop.1 (GitSt.mk [(["f"], "x")] [] [(["f"], "x")] [] [])
      CommitType.UPLOAD "work" (by decide),
   git_push_empty_stage_is_noop.2 (GitSt.mk [(["f"], "x")] [] [] [] [])
      CommitType.UPLOAD CommitType.UPLOAD "work" "work"⟩

/-- Claim C5: a Git-backend `push` with a non-empty staged change set
commits with a message derived solely from the commit type and the profile:
`{profile}: create` for CREATE and `{profile}: update` for UPLOAD. -/
theorem git_push_commit_message (g : GitSt) (t : CommitType) (p : String)
    (h : changedPaths g.work g.head ≠ []) :
    (gitPush t p g).log = g.log ++ [commitMessage t p] ∧
    commitMessage CommitType.CREATE p = p ++ ": create" ∧
    commitMessage CommitType.UPLOAD p = p ++ ": update" := by
  rw [gitPush_with_changes h]
  exact ⟨rfl, rfl, rfl⟩

/-- Closed instance of the C5 theorem at profile `work`, in both commit
intents. -/
theorem git_push_commit_message_witness :
    ((gitPush CommitType.CREATE "work" (GitSt.mk [(["f"], "x")] [] [] [] [])).log =
        [] ++ [commitMessage CommitType.CREATE "work"] ∧
      commitMessage CommitType.CREATE "work" = "work" ++ ": create" ∧
      commitMessage CommitType.UPLOAD "work" = "work" ++ ": update") ∧
    (gitPush CommitType.UPLOAD "work" (GitSt.mk [(["f"], "x")] [] [] [] [])).log =
      [] ++ [commitMessage CommitType.UPLOAD "work"] :=
  ⟨git_push_commit_message (GitSt.mk [(["f"], "x")] [] [] [] [])
      CommitType.CREATE "work" (by decide),
   (git_push_commit_message (GitSt.mk [(["f"], "x")] [] [] [] [])
      CommitType.UPLOAD "work" (by decide)).1⟩

/-- Claim C7: after `duplicateProfileTo`, the new profile directory contains
the `.gitkeep` placeholder (created exactly when it did not already exist,
so it is present even when the base copy duplicated nothing), and exactly
one push is performed beyond the base copy, with commit type CREATE scoped
to the new profile name. -/
theorem duplicate_profile_gitkeep_and_single_push
    (baseCopy : String → String → GitSt → GitSt) (g : GitSt)
    (originalProfile newProfile : String)
    (hbase : (baseCopy originalProfile newProfile g).pushes = g.pushes) :
    lookupF (gitkeepPath newProfile)
        (duplicateProfileTo baseCopy g originalProfile newProfile).work ≠ none ∧
    (duplicateProfileTo baseCopy g originalProfile newProfile).pushes =
      g.pushes ++ [(CommitType.CREATE, newProfile)] ∧
    (duplicateProfileTo baseCopy g originalProfile newProfile).work =
      (if lookupF (gitkeepPath newProfile)
            (baseCopy originalProfile newProfile g).work = none then
         (gitkeepPath newProfile, "") ::
           (baseCopy originalProfile newProfile g).work
       else (baseCopy originalProfile newProfile g).work) := by
  have hdef : duplicateProfileTo baseCopy g originalProfile newProfile =
      gitPush CommitType.CREATE newProfile
        (if lookupF (gitkeepPath newProfile)
              (baseCopy originalProfile newProfile g).work = none then
           { baseCopy originalProfile newProfile g with
               work := (gitkeepPath newProfile, "") ::
                 (baseCopy originalProfile newProfile g).work }
         else baseCopy originalProfile newProfile g) := rfl
  refine ⟨?_, ?_, ?_⟩
  · rw [hdef, gitPush_work]
    by_cases hc : lookupF (gitkeepPath newProfile)
        (baseCopy originalProfile newProfile g).work = none
    · rw [if_pos hc]
      show lookupF (gitkeepPath newProfile)
          ((gitkeepPath newProfile, "") ::
            (baseCopy originalProfile newProfile g).work) ≠ none
      rw [lookupF, if_pos rfl]
      exact Option.some_ne_none _
    · rw [if_neg hc]
      exact hc
  · rw [hdef, gitPush_pushes]
    by_cases hc : lookupF (gitkeepPath newProfile)
        (baseCopy originalProfile newProfile g).work = none
    · rw [if_pos hc]
      show (baseCopy originalProfile newProfile g).pushes ++
          [(CommitType.CREATE, newProfile)] =
        g.pushes ++ [(CommitType.CREATE, newProfile)]
      rw [hbase]
    · rw [if_neg hc, hbase]
  · rw [hdef, gitPush_work]
    by_cases hc : lookupF (gitkeepPath newProfile)
        (baseCopy originalProfile newProfile g).work = none
    · rw [if_pos hc, if_pos hc]
    · rw [if_neg hc, if_neg hc]

/-- Closed instance of the C7 theorem with an identity base copy over an
empty mirror: the placeholder appears and exactly one CREATE push is
recorded. -/
theorem duplicate_profile_gitkeep_and_single_push_witness :
    lookupF (gitkeepPath "b")
        (duplicateProfileTo (fun _ _ x => x) (GitSt.mk [] [] [] [] [])
          "a" "b").work ≠ none ∧
    (duplicateProfileTo (fun _ _ x => x) (GitSt.mk [] [] [] [] [])
        "a" "b").pushes =
      (GitSt.mk [] [] [] [] []).pushes ++ [(CommitType.CREATE, "b")] :=
  ⟨(duplicate_profile_gitkeep_and_single_push (fun _ _ x => x)
      (GitSt.mk [] [] [] [] []) "a" "b" rfl).1,
   (duplicate_profile_gitkeep_and_single_push (fun _ _ x => x)
      (GitSt.mk [] [] [] [] []) "a" "b" rfl).2.1⟩

/-- Claim C8: the Git-backend `pull()` reports success on every run that
returns normally (failure is possible only as a propagated exception from
the underlying version-control initialization, never as a `false` return),
so the `initialize()` branch that logs `can not pull git repository` and
aborts is unreachable: no normal run of `initialize` logs that message or
leaves the initialized flag unset. -/
theorem git_pull_always_reports_success :
    (∀ (g : GitSt) (isRepo : Bool) (initRes : Except String Unit),
      gitPullFlag (gitPull g isRepo initRes) = true) ∧
    (∀ (g : GitSt) (profile : String) (isRepo : Bool)
      (initRes : Except String Unit),
      "can not pull git repository" ∉
        gitInitLogs (gitInitialize g profile isRepo initRes) ∧
      gitInitFlag (gitInitialize g profile isRepo initRes) ≠ some false) := by
  constructor
  · intro g isRepo initRes
    cases isRepo <;> cases initRes <;> rfl
  · intro g profile isRepo initRes
    cases isRepo <;> cases initRes <;>
      exact ⟨by simp [gitInitialize, gitPull, gitInitLogs],
             by simp [gitInitialize, gitPull, gitInitFlag]⟩

theorem refusedMsg_length (url : String) :
    (refusedMsg url).length = url.length + 32 := by
  rw [refusedMsg, String.length_append, String.length_append]
  have h1 : ("The connection to \"" : String).length = 19 := rfl
  have h2 : ("\" is refused." : String).length = 13 := rfl
  omega

theorem unauthorizedMsg_length (url : String) :
    (unauthorizedMsg url).length = url.length + 38 := by
  rw [unauthorizedMsg, String.length_append, String.length_append,
    String.length_append, String.length_append]
  have h1 : ("The connection to \"" : String).length = 19 := rfl
  have h2 : ("\" isn" : String).length = 5 := rfl
  have h3 : apos.length = 1 := rfl
  have h4 : ("t authorized." : String).length = 13 := rfl
  omega

theorem notFoundMsg_length (url : String) :
    (notFoundMsg url).length = url.length + 26 := by
  rw [notFoundMsg, String.length_append, String.length_append,
    String.length_append, String.length_append]
  have h1 : ("The url \"" : String).length = 9 := rfl
  have h2 : ("\" can" : String).length = 5 := rfl
  have h3 : apos.length = 1 := rfl
  have h4 : ("t be found." : String).length = 11 := rfl
  omega

/-- Claim C6: a failing root health-check stat during WebDAV `initialize`
is classified into one of four messages — connection refused, unauthorized,
not found, or the stringified fallback — where the three specific messages
are pairwise distinct for every url; the failure is logged and `initialize`
returns normally without proceeding to the rest of initialization, leaving
the backend uninitialized. -/
theorem webdav_initialize_classifies_and_stays_uninitialized (url : String)
    (e : WebDAVError) :
    webdavInitialize url (Except.error e) = ⟨[classify url e], false⟩ ∧
    (e.code = some "ECONNREFUSED" → classify url e = refusedMsg url) ∧
    (e.code ≠ some "ECONNREFUSED" → e.status = some 401 →
      classify url e = unauthorizedMsg url) ∧
    (e.code ≠ some "ECONNREFUSED" → e.status ≠ some 401 → e.status = some 404 →
      classify url e = notFoundMsg url) ∧
    (e.code ≠ some "ECONNREFUSED" → e.status ≠ some 401 → e.status ≠ some 404 →
      classify url e = e.str) ∧
    refusedMsg url ≠ unauthorizedMsg url ∧
    refusedMsg url ≠ notFoundMsg url ∧
    unauthorizedMsg url ≠ notFoundMsg url := by
  refine ⟨rfl, ?_, ?_, ?_, ?_, ?_, ?_, ?_⟩
  · intro h
    rw [classify, if_pos h]
  · intro h1 h2
    rw [classify, if_neg h1, if_pos h2]
  · intro h1 h2 h3
    rw [classify, if_neg h1, if_neg h2, if_pos h3]
  · intro h1 h2 h3
    rw [classify, if_neg h1, if_neg h2, if_neg h3]
  · intro hx
    have hlen := congrArg String.length hx
    rw [refusedMsg_length, unauthorizedMsg_length] at hlen
    omega
  · intro hx
    have hlen := congrArg String.length hx
    rw [refusedMsg_length, notFoundMsg_length] at hlen
    omega
  · intro hx
    have hlen := congrArg String.length hx
    rw [unauthorizedMsg_length, notFoundMsg_length] at hlen
    omega

/-- Closed instance of the C6 theorem at a refused-connection error. -/
theorem webdav_initialize_classifies_witness :
    webdavInitialize "u"
        (Except.error (WebDAVError.mk (some "ECONNREFUSED") none "E")) =
      WInitRes.mk
        [classify "u" (WebDAVError.mk (some "ECONNREFUSED") none "E")] false ∧
    classify "u" (WebDAVError.mk (some "ECONNREFUSED") none "E") =
      refusedMsg "u" ∧
    refusedMsg "u" ≠ unauthorizedMsg "u" :=
  ⟨(webdav_initialize_classifies_and_stays_uninitialized "u"
      (WebDAVError.mk (some "ECONNREFUSED") none "E")).1,
   (webdav_initialize_classifies_and_stays_uninitialized "u"
      (WebDAVError.mk (some "ECONNREFUSED") none "E")).2.1 rfl,
   (webdav_initialize_classifies_and_stays_uninitialized "u"
      (WebDAVError.mk (some "ECONNREFUSED") none "E")).2.2.2.2.2.1⟩

/-- Claim C10: the Git-backend `upload()` performs no initialized-flag
precondition check — its result is independent of the flag and always
proceeds to the base upload followed by `push(UPLOAD)` — while the WebDAV
`download()` and `upload()` run the initialized-precondition check first
and fail on an uninitialized backend before any pull or push. -/
theorem git_upload_has_no_initialized_check :
    (∀ (baseUpload : GitSt → GitSt) (profile : String) (g : GitSt)
      (b1 b2 : Bool),
      gitUpload baseUpload profile b1 g = gitUpload baseUpload profile b2 g ∧
      gitUpload baseUpload profile b1 g =
        gitPush CommitType.UPLOAD profile (baseUpload g)) ∧
    (webdavDownload false = Except.error "not initialized" ∧
      webdavUpload false = Except.error "not initialized") ∧
    (webdavDownload true = Except.ok [WAct.pullAct, WAct.baseDownload] ∧
      webdavUpload true = Except.ok [WAct.baseUpload, WAct.pushAct]) :=
  ⟨fun _ _ _ _ _ => ⟨rfl, rfl⟩, ⟨rfl, rfl⟩, ⟨rfl, rfl⟩⟩
